import Mathlib

/-! EOG artifact removal by linear regression — verification.

Shallow embedding of `src/static/code/removing-eog-regression.py`.

The script loads two recordings (a calibration run and a target run), each a
25-channel signal (22 EEG channels followed by 3 raw EOG channels), applies the
fixed bipolar transform `bip = [[1, -1, 0], [0, -1, 1]]` to the EOG rows,
estimates regression coefficients `b` by solving
`(raw1_eog @ raw1_eog.T) b = raw1_eog @ raw1_eeg.T`, subtracts the predicted
contamination from the target's EEG rows, and writes the corrected EEG rows
back into a copy of the target.

Real-valued samples are modelled as exact rationals; the data loaded from the
`.mat` file is unknown, so signals are universally quantified matrices with the
channel layout fixed by the script (25 = 22 EEG + 3 EOG) and the sample counts
of calibration and target left as parameters.  `np.linalg.solve` raises a
`LinAlgError` on a singular system; it is modelled as an `Except` value that
returns the exact solution of the linear system when the coefficient matrix is
invertible and an error otherwise.
-/

open Matrix

/-- Errors of the artifact-removal procedure: a failed linear solve
(`np.linalg.solve` on a singular matrix) or incompatible input shapes. -/
inductive RegressionError where
  | shapeMismatch
  | singularRegression
deriving DecidableEq

/-- The fixed bipolar transform `bip = np.array([[1, -1, 0], [0, -1, 1]])`. -/
def bip : Matrix (Fin 2) (Fin 3) ℚ :=
  Matrix.of ![![1, -1, 0], ![0, -1, 1]]

/-- The raw EOG rows of a 25-channel signal: rows 22, 23, 24
(`raw[22:, :][0]`). -/
def eogRows {n : ℕ} (x : Matrix (Fin 25) (Fin n) ℚ) : Matrix (Fin 3) (Fin n) ℚ :=
  Matrix.of fun i j => x ⟨22 + i.val, by omega⟩ j

/-- The EEG rows of a 25-channel signal: rows 0 … 21 (`raw[:22, :][0]`). -/
def eegRows {n : ℕ} (x : Matrix (Fin 25) (Fin n) ℚ) : Matrix (Fin 22) (Fin n) ℚ :=
  Matrix.of fun i j => x ⟨i.val, by omega⟩ j

/-- Bipolar EOG derivations of a signal: `bip @ raw[22:, :][0]`. -/
def bipEOG {n : ℕ} (x : Matrix (Fin 25) (Fin n) ℚ) : Matrix (Fin 2) (Fin n) ℚ :=
  bip * eogRows x

/-- The cross-product matrix `G = raw1_eog @ raw1_eog.T` of a calibration
signal. -/
def Gmat {n : ℕ} (cal : Matrix (Fin 25) (Fin n) ℚ) : Matrix (Fin 2) (Fin 2) ℚ :=
  bipEOG cal * (bipEOG cal)ᵀ

/-- The cross-covariance `C = raw1_eog @ raw1_eeg.T` of a calibration
signal. -/
def Cmat {n : ℕ} (cal : Matrix (Fin 25) (Fin n) ℚ) : Matrix (Fin 2) (Fin 22) ℚ :=
  bipEOG cal * (eegRows cal)ᵀ

/-- Determinant of a 2 × 2 rational matrix, written out. -/
def det2 (g : Matrix (Fin 2) (Fin 2) ℚ) : ℚ :=
  g 0 0 * g 1 1 - g 0 1 * g 1 0

/-- Adjugate of a 2 × 2 rational matrix, written out. -/
def adj2 (g : Matrix (Fin 2) (Fin 2) ℚ) : Matrix (Fin 2) (Fin 2) ℚ :=
  Matrix.of ![![g 1 1, -g 0 1], ![-g 1 0, g 0 0]]

/-- Model of `np.linalg.solve(g, c)` for the 2 × 2 system arising in the script: the
exact solution `g⁻¹ c` when `g` is invertible, a `LinAlgError`
(`singularRegression`) otherwise. -/
def linSolve {m : ℕ} (g : Matrix (Fin 2) (Fin 2) ℚ) (c : Matrix (Fin 2) (Fin m) ℚ) :
    Except RegressionError (Matrix (Fin 2) (Fin m) ℚ) :=
  if det2 g = 0 then .error .singularRegression
  else .ok ((det2 g)⁻¹ • (adj2 g * c))

/-- The regression coefficients
`b = np.linalg.solve(raw1_eog @ raw1_eog.T, raw1_eog @ raw1_eeg.T)`. -/
def Bmat {n : ℕ} (cal : Matrix (Fin 25) (Fin n) ℚ) :
    Except RegressionError (Matrix (Fin 2) (Fin 22) ℚ) :=
  linSolve (Gmat cal) (Cmat cal)

/-- The corrected EEG rows
`eeg_corrected = (raw2_eeg.T - raw2_eog.T @ b).T`. -/
def correctEEG {n : ℕ} (tgt : Matrix (Fin 25) (Fin n) ℚ)
    (b : Matrix (Fin 2) (Fin 22) ℚ) : Matrix (Fin 22) (Fin n) ℚ :=
  ((eegRows tgt)ᵀ - (bipEOG tgt)ᵀ * b)ᵀ

/-- Model of `raw3 = raw2.copy(); raw3._data[:22, :] = eeg_corrected`: the target with
its first 22 rows replaced by corrected EEG values and rows 22 … 24 kept. -/
def assemble {n : ℕ} (tgt : Matrix (Fin 25) (Fin n) ℚ)
    (e : Matrix (Fin 22) (Fin n) ℚ) : Matrix (Fin 25) (Fin n) ℚ :=
  Matrix.of fun i j => if h : i.val < 22 then e ⟨i.val, h⟩ j else tgt i j

/-- The whole procedure of the script, from the two loaded signals to `raw3`. -/
def removeEOG {n₁ n₂ : ℕ} (cal : Matrix (Fin 25) (Fin n₁) ℚ)
    (tgt : Matrix (Fin 25) (Fin n₂) ℚ) :
    Except RegressionError (Matrix (Fin 25) (Fin n₂) ℚ) :=
  (Bmat cal).map fun b => assemble tgt (correctEEG tgt b)

/-! Section: Helper lemmas about the 2 × 2 solver -/

theorem mul_adj2 (g : Matrix (Fin 2) (Fin 2) ℚ) : g * adj2 g = det2 g • 1 := by
  ext i j
  fin_cases i <;> fin_cases j <;>
    simp [adj2, det2, Matrix.mul_apply, Fin.sum_univ_two, Matrix.one_apply] <;> ring

theorem solve_mul (g : Matrix (Fin 2) (Fin 2) ℚ) {m : ℕ} (c : Matrix (Fin 2) (Fin m) ℚ)
    (h : det2 g ≠ 0) : g * ((det2 g)⁻¹ • (adj2 g * c)) = c := by
  rw [Matrix.mul_smul, ← Matrix.mul_assoc, mul_adj2, Matrix.smul_mul, Matrix.one_mul,
    smul_smul, inv_mul_cancel₀ h, one_smul]

theorem det2_eq_det (g : Matrix (Fin 2) (Fin 2) ℚ) : det2 g = g.det := by
  rw [Matrix.det_fin_two]; rfl

theorem linSolve_of_det_ne {m : ℕ} (g : Matrix (Fin 2) (Fin 2) ℚ)
    (c : Matrix (Fin 2) (Fin m) ℚ) (h : det2 g ≠ 0) :
    linSolve g c = .ok ((det2 g)⁻¹ • (adj2 g * c)) := by
  simp [linSolve, h]

theorem removeEOG_eq_ok {n₁ n₂ : ℕ} (cal : Matrix (Fin 25) (Fin n₁) ℚ)
    (tgt : Matrix (Fin 25) (Fin n₂) ℚ) (h2 : det2 (Gmat cal) ≠ 0) :
    removeEOG cal tgt =
      .ok (assemble tgt
        (correctEEG tgt ((det2 (Gmat cal))⁻¹ • (adj2 (Gmat cal) * Cmat cal)))) := by
  simp [removeEOG, Bmat, linSolve_of_det_ne _ _ h2, Except.map]

theorem assemble_apply_eeg {n : ℕ} (tgt : Matrix (Fin 25) (Fin n) ℚ)
    (e : Matrix (Fin 22) (Fin n) ℚ) (i : Fin 22) (j : Fin n) :
    assemble tgt e ⟨i.val, by omega⟩ j = e i j := by
  simp [assemble, i.isLt]

theorem assemble_apply_eog {n : ℕ} (tgt : Matrix (Fin 25) (Fin n) ℚ)
    (e : Matrix (Fin 22) (Fin n) ℚ) (i : Fin 25) (j : Fin n) (hi : 22 ≤ i.val) :
    assemble tgt e i j = tgt i j := by
  simp [assemble, Nat.not_lt_of_ge hi]

/-! Section: Concrete signals used as witnesses -/

/-- A calibration signal with two samples whose bipolar EOG derivations form
the 2 × 2 identity, so its cross-product matrix is non-singular. -/
def calW : Matrix (Fin 25) (Fin 2) ℚ :=
  Matrix.of fun i j =>
    if i.val = 22 ∧ j.val = 0 then 1 else if i.val = 24 ∧ j.val = 1 then 1 else 0

/-- An all-zero one-sample target signal. -/
def tgtW : Matrix (Fin 25) (Fin 1) ℚ := 0

theorem bipEOG_calW : bipEOG calW = 1 := by
  ext i j
  fin_cases i <;> fin_cases j <;>
    simp [bipEOG, bip, eogRows, calW, Matrix.mul_apply, Fin.sum_univ_three, Matrix.one_apply]

theorem Gmat_calW : Gmat calW = 1 := by
  rw [Gmat, bipEOG_calW]; simp

theorem det_Gmat_calW : (Gmat calW).det ≠ 0 := by
  rw [Gmat_calW]; simp

/-! Section: Claims -/

/-- Claim C1: The regression-coefficient matrix `B` computed by the procedure
satisfies `G · B = C` with `G = calibrationBipolarEOG · calibrationBipolarEOGᵀ`
and `C = calibrationBipolarEOG · calibrationEEGᵀ`, for every calibration input
for which `G` is non-singular. -/
theorem C1_normal_equations {n₁ : ℕ} (cal : Matrix (Fin 25) (Fin n₁) ℚ)
    (h : (Gmat cal).det ≠ 0) :
    ∃ b, Bmat cal = .ok b ∧ Gmat cal * b = Cmat cal := by
  have h2 : det2 (Gmat cal) ≠ 0 := by rwa [det2_eq_det]
  exact ⟨(det2 (Gmat cal))⁻¹ • (adj2 (Gmat cal) * Cmat cal),
    linSolve_of_det_ne _ _ h2, solve_mul _ _ h2⟩

theorem C1_normal_equations_witness :
    (Gmat calW).det ≠ 0 ∧ ∃ b, Bmat calW = .ok b ∧ Gmat calW * b = Cmat calW :=
  ⟨det_Gmat_calW, C1_normal_equations calW det_Gmat_calW⟩

/-- Claim C2: With a non-singular `G`, each corrected EEG sample of the output
equals the target's EEG sample minus the predicted contamination
`transpose(targetBipolarEOGᵀ · B)`, where `B` is estimated from the
calibration. -/
theorem C2_correction_formula {n₁ n₂ : ℕ} (cal : Matrix (Fin 25) (Fin n₁) ℚ)
    (tgt : Matrix (Fin 25) (Fin n₂) ℚ) (h : (Gmat cal).det ≠ 0) :
    ∃ b out, Bmat cal = .ok b ∧ removeEOG cal tgt = .ok out ∧
      ∀ (i : Fin 22) (j : Fin n₂),
        out ⟨i.val, by omega⟩ j =
          eegRows tgt i j - ((bipEOG tgt)ᵀ * b)ᵀ i j := by
  have h2 : det2 (Gmat cal) ≠ 0 := by rwa [det2_eq_det]
  have hcor : ∀ (b : Matrix (Fin 2) (Fin 22) ℚ) (i : Fin 22) (j : Fin n₂),
      correctEEG tgt b i j = eegRows tgt i j - ((bipEOG tgt)ᵀ * b)ᵀ i j := by
    intro b i j
    simp [correctEEG, Matrix.sub_apply]
  exact ⟨(det2 (Gmat cal))⁻¹ • (adj2 (Gmat cal) * Cmat cal),
    assemble tgt (correctEEG tgt ((det2 (Gmat cal))⁻¹ • (adj2 (Gmat cal) * Cmat cal))),
    linSolve_of_det_ne _ _ h2, removeEOG_eq_ok cal tgt h2,
    fun i j => (assemble_apply_eeg _ _ i j).trans (hcor _ i j)⟩

theorem C2_correction_formula_witness :
    (Gmat calW).det ≠ 0 ∧
      ∃ b out, Bmat calW = .ok b ∧ removeEOG calW tgtW = .ok out ∧
        ∀ (i : Fin 22) (j : Fin 1),
          out ⟨i.val, by omega⟩ j =
            eegRows tgtW i j - ((bipEOG tgtW)ᵀ * b)ᵀ i j :=
  ⟨det_Gmat_calW, C2_correction_formula calW tgtW det_Gmat_calW⟩

/-- Claim C3: For valid inputs (non-singular `G`), the output has the target's
shape and channel layout — it is a 25 × n₂ matrix like `tgt` — and its EOG
rows (rows 22, 23, 24) coincide with the target's, value for value; only the
EEG rows are altered. -/
theorem C3_eog_rows_preserved {n₁ n₂ : ℕ} (cal : Matrix (Fin 25) (Fin n₁) ℚ)
    (tgt : Matrix (Fin 25) (Fin n₂) ℚ) (h : (Gmat cal).det ≠ 0) :
    ∃ out : Matrix (Fin 25) (Fin n₂) ℚ, removeEOG cal tgt = .ok out ∧
      ∀ (i : Fin 25) (j : Fin n₂), 22 ≤ i.val → out i j = tgt i j := by
  have h2 : det2 (Gmat cal) ≠ 0 := by rwa [det2_eq_det]
  exact ⟨assemble tgt
      (correctEEG tgt ((det2 (Gmat cal))⁻¹ • (adj2 (Gmat cal) * Cmat cal))),
    removeEOG_eq_ok cal tgt h2, fun i j hi => assemble_apply_eog _ _ i j hi⟩

theorem C3_eog_rows_preserved_witness :
    (Gmat calW).det ≠ 0 ∧
      ∃ out : Matrix (Fin 25) (Fin 1) ℚ, removeEOG calW tgtW = .ok out ∧
        ∀ (i : Fin 25) (j : Fin 1), 22 ≤ i.val → out i j = tgtW i j :=
  ⟨det_Gmat_calW, C3_eog_rows_preserved calW tgtW det_Gmat_calW⟩

/-- Claim C4: If the calibration's raw EOG channels are all zero then `G` is the
zero matrix, and whenever `G` is non-invertible the procedure fails with the
singular-regression error, returning no partial result. -/
theorem C4_singular_error {n₁ n₂ : ℕ} (cal : Matrix (Fin 25) (Fin n₁) ℚ)
    (tgt : Matrix (Fin 25) (Fin n₂) ℚ) :
    (eogRows cal = 0 → Gmat cal = 0) ∧
    (¬ IsUnit (Gmat cal) → removeEOG cal tgt = .error .singularRegression) := by
  constructor
  · intro hz
    simp [Gmat, bipEOG, hz]
  · intro hG
    have hdet : (Gmat cal).det = 0 := by
      by_contra hne
      exact hG ((Matrix.isUnit_iff_isUnit_det _).mpr (isUnit_iff_ne_zero.mpr hne))
    have h2 : det2 (Gmat cal) = 0 := by rw [det2_eq_det]; exact hdet
    simp [removeEOG, Bmat, linSolve, h2, Except.map]

theorem C4_singular_error_witness :
    Gmat (0 : Matrix (Fin 25) (Fin 1) ℚ) = 0 ∧
    removeEOG (0 : Matrix (Fin 25) (Fin 1) ℚ) tgtW = .error .singularRegression := by
  have hz : eogRows (0 : Matrix (Fin 25) (Fin 1) ℚ) = 0 := by
    ext i j; simp [eogRows]
  have hG : Gmat (0 : Matrix (Fin 25) (Fin 1) ℚ) = 0 :=
    (C4_singular_error (0 : Matrix (Fin 25) (Fin 1) ℚ) tgtW).1 hz
  refine ⟨hG, (C4_singular_error (0 : Matrix (Fin 25) (Fin 1) ℚ) tgtW).2 ?_⟩
  rw [hG]
  simp [Matrix.isUnit_iff_isUnit_det]

/-- Claim C7: The procedure is deterministic: on equal calibration and target
inputs it returns equal results (the computation involves no randomness). -/
theorem C7_deterministic {n₁ n₂ : ℕ} (cal₁ cal₂ : Matrix (Fin 25) (Fin n₁) ℚ)
    (tgt₁ tgt₂ : Matrix (Fin 25) (Fin n₂) ℚ) (hc : cal₁ = cal₂) (ht : tgt₁ = tgt₂) :
    removeEOG cal₁ tgt₁ = removeEOG cal₂ tgt₂ := by
  rw [hc, ht]

theorem C7_deterministic_witness :
    removeEOG calW tgtW = removeEOG calW tgtW :=
  C7_deterministic calW calW tgtW tgtW rfl rfl

/-- Claim C10: If the target's raw EOG channels are all zero and the calibration
yields a non-singular `G`, the predicted contamination vanishes for every
coefficient matrix and the procedure returns the target unchanged. -/
theorem C10_zero_target_eog {n₁ n₂ : ℕ} (cal : Matrix (Fin 25) (Fin n₁) ℚ)
    (tgt : Matrix (Fin 25) (Fin n₂) ℚ) (hz : eogRows tgt = 0)
    (h : (Gmat cal).det ≠ 0) :
    (∀ b : Matrix (Fin 2) (Fin 22) ℚ, (bipEOG tgt)ᵀ * b = 0) ∧
    removeEOG cal tgt = .ok tgt := by
  have h2 : det2 (Gmat cal) ≠ 0 := by rwa [det2_eq_det]
  have hb : bipEOG tgt = 0 := by simp [bipEOG, hz]
  refine ⟨fun b => by simp [hb], ?_⟩
  have hc : correctEEG tgt ((det2 (Gmat cal))⁻¹ • (adj2 (Gmat cal) * Cmat cal)) =
      eegRows tgt := by
    simp [correctEEG, hb]
  have ha : assemble tgt (eegRows tgt) = tgt := by
    ext i j
    by_cases hi : i.val < 22
    · simp [assemble, hi, eegRows]
    · simp [assemble, hi]
  simp [removeEOG, Bmat, linSolve_of_det_ne _ _ h2, Except.map, hc, ha]

theorem C10_zero_target_eog_witness :
    eogRows tgtW = 0 ∧ (Gmat calW).det ≠ 0 ∧
      ((∀ b : Matrix (Fin 2) (Fin 22) ℚ, (bipEOG tgtW)ᵀ * b = 0) ∧
        removeEOG calW tgtW = .ok tgtW) :=
  ⟨by ext i j; simp [eogRows, tgtW], det_Gmat_calW,
    C10_zero_target_eog calW tgtW (by ext i j; simp [eogRows, tgtW]) det_Gmat_calW⟩

/-! Section: Per-sample offsets on the raw EOG channels (common-mode signals) -/

/-- Add the same per-sample offset `v` to all three raw EOG channels of a
signal, leaving the EEG channels untouched. -/
def addOffset {n : ℕ} (x : Matrix (Fin 25) (Fin n) ℚ) (v : Fin n → ℚ) :
    Matrix (Fin 25) (Fin n) ℚ :=
  Matrix.of fun i j => if 22 ≤ i.val then x i j + v j else x i j

theorem eogRows_addOffset {n : ℕ} (x : Matrix (Fin 25) (Fin n) ℚ) (v : Fin n → ℚ) :
    eogRows (addOffset x v) = Matrix.of fun i j => eogRows x i j + v j := by
  ext i j
  simp only [eogRows, addOffset, Matrix.of_apply]
  rw [if_pos (by omega)]

theorem eegRows_addOffset {n : ℕ} (x : Matrix (Fin 25) (Fin n) ℚ) (v : Fin n → ℚ) :
    eegRows (addOffset x v) = eegRows x := by
  ext i j
  simp only [eegRows, addOffset, Matrix.of_apply]
  rw [if_neg (by omega)]

theorem bipEOG_addOffset {n : ℕ} (x : Matrix (Fin 25) (Fin n) ℚ) (v : Fin n → ℚ) :
    bipEOG (addOffset x v) = bipEOG x := by
  ext i j
  fin_cases i <;>
    simp [bipEOG, Matrix.mul_apply, Fin.sum_univ_three, eogRows_addOffset, bip] <;> ring

theorem eegRows_assemble {n : ℕ} (tgt : Matrix (Fin 25) (Fin n) ℚ)
    (e : Matrix (Fin 22) (Fin n) ℚ) : eegRows (assemble tgt e) = e := by
  ext i j
  simp [eegRows, assemble, i.isLt]

/-- Claim C9: Every row of the bipolar transform sums to zero, so adding one and
the same per-sample offset to all three raw EOG channels of the calibration or
the target changes neither the bipolar derivations, nor the estimated
coefficients, nor the corrected EEG output. -/
theorem C9_common_mode_rejection {n₁ n₂ : ℕ} (cal : Matrix (Fin 25) (Fin n₁) ℚ)
    (tgt : Matrix (Fin 25) (Fin n₂) ℚ) (v : Fin n₁ → ℚ) (w : Fin n₂ → ℚ) :
    (∀ i : Fin 2, ∑ j : Fin 3, bip i j = 0) ∧
    bipEOG (addOffset cal v) = bipEOG cal ∧
    Bmat (addOffset cal v) = Bmat cal ∧
    (∀ b : Matrix (Fin 2) (Fin 22) ℚ,
      correctEEG (addOffset tgt w) b = correctEEG tgt b) ∧
    (removeEOG (addOffset cal v) (addOffset tgt w)).map eegRows =
      (removeEOG cal tgt).map eegRows := by
  have hrow : ∀ i : Fin 2, ∑ j : Fin 3, bip i j = 0 := by
    intro i; fin_cases i <;> simp [bip, Fin.sum_univ_three]
  have hB : Bmat (addOffset cal v) = Bmat cal := by
    rw [Bmat, Bmat, Gmat, Gmat, Cmat, Cmat, bipEOG_addOffset, eegRows_addOffset]
  have hcor : ∀ b : Matrix (Fin 2) (Fin 22) ℚ,
      correctEEG (addOffset tgt w) b = correctEEG tgt b := by
    intro b
    rw [correctEEG, correctEEG, bipEOG_addOffset, eegRows_addOffset]
  refine ⟨hrow, bipEOG_addOffset cal v, hB, hcor, ?_⟩
  rw [removeEOG, removeEOG, hB]
  cases hb : Bmat cal with
  | error e => simp [Except.map]
  | ok b => simp [Except.map, eegRows_assemble, hcor]

/-! Section: Self-correction: the residual EOG/EEG cross-covariance vanishes -/

theorem eogRows_assemble {n : ℕ} (tgt : Matrix (Fin 25) (Fin n) ℚ)
    (e : Matrix (Fin 22) (Fin n) ℚ) : eogRows (assemble tgt e) = eogRows tgt := by
  ext i j
  simp only [eogRows, assemble, Matrix.of_apply]
  rw [dif_neg (by omega)]

theorem assemble_eegRows {n : ℕ} (x : Matrix (Fin 25) (Fin n) ℚ) :
    assemble x (eegRows x) = x := by
  ext i j
  by_cases hi : i.val < 22
  · simp [assemble, hi, eegRows]
  · simp [assemble, hi]

/-- Claim C8: Correcting a signal with coefficients estimated from that very
signal makes the corrected signal's own bipolar-EOG/EEG cross-covariance
exactly zero, so coefficients re-estimated from the corrected signal are the
zero matrix and a second correction returns the corrected signal unchanged. -/
theorem C8_self_correction_noop {n : ℕ} (s c : Matrix (Fin 25) (Fin n) ℚ)
    (h : (Gmat s).det ≠ 0) (hc : removeEOG s s = .ok c) :
    Cmat c = 0 ∧ Bmat c = .ok 0 ∧ removeEOG c c = .ok c := by
  have h2 : det2 (Gmat s) ≠ 0 := by rwa [det2_eq_det]
  set b := (det2 (Gmat s))⁻¹ • (adj2 (Gmat s) * Cmat s) with hb
  have hrem : removeEOG s s = .ok (assemble s (correctEEG s b)) := by
    simp [removeEOG, Bmat, linSolve_of_det_ne _ _ h2, Except.map, hb]
  have hceq : c = assemble s (correctEEG s b) := by
    rw [hrem] at hc
    exact (Except.ok.injEq _ _).mp hc.symm
  have hEog : eogRows c = eogRows s := by rw [hceq, eogRows_assemble]
  have hbip : bipEOG c = bipEOG s := by rw [bipEOG, bipEOG, hEog]
  have hGc : Gmat c = Gmat s := by rw [Gmat, Gmat, hbip]
  have hEeg : eegRows c = correctEEG s b := by rw [hceq, eegRows_assemble]
  have hsolve : Gmat s * b = Cmat s := solve_mul _ _ h2
  have hCc : Cmat c = 0 := by
    rw [Cmat, hbip, hEeg, correctEEG, Matrix.transpose_transpose, Matrix.mul_sub,
      ← Matrix.mul_assoc]
    rw [show bipEOG s * (eegRows s)ᵀ = Cmat s from rfl,
      show bipEOG s * (bipEOG s)ᵀ = Gmat s from rfl, hsolve, sub_self]
  have h2c : det2 (Gmat c) ≠ 0 := by rwa [hGc]
  have hBc : Bmat c = .ok 0 := by
    rw [Bmat, linSolve_of_det_ne _ _ h2c, hCc]
    simp
  refine ⟨hCc, hBc, ?_⟩
  have hcor0 : correctEEG c 0 = eegRows c := by
    simp [correctEEG]
  rw [removeEOG, hBc]
  simp [Except.map, hcor0, assemble_eegRows]

theorem eegRows_calW : eegRows calW = 0 := by
  ext i j
  have h1 : (i : ℕ) ≠ 22 := by omega
  have h2 : (i : ℕ) ≠ 24 := by omega
  simp [eegRows, calW, h1, h2]

theorem removeEOG_calW : removeEOG calW calW = .ok calW := by
  have h2 : det2 (Gmat calW) ≠ 0 := by
    rw [det2_eq_det]; exact det_Gmat_calW
  have hC : Cmat calW = 0 := by
    rw [Cmat, bipEOG_calW, Matrix.one_mul, eegRows_calW]
    simp
  simp [removeEOG, Bmat, linSolve_of_det_ne _ _ h2, hC, Except.map, correctEEG,
    assemble_eegRows]

theorem C8_self_correction_noop_witness :
    (Gmat calW).det ≠ 0 ∧ removeEOG calW calW = .ok calW ∧
      (Cmat calW = 0 ∧ Bmat calW = .ok 0 ∧ removeEOG calW calW = .ok calW) :=
  ⟨det_Gmat_calW, removeEOG_calW,
    C8_self_correction_noop calW calW det_Gmat_calW removeEOG_calW⟩

/-! Section: The 1000-sample / 500-sample scenario -/

/-- Claim C6: For a 25-channel (22 EEG + 3 raw EOG) calibration with 1000 samples
and a target with the same layout but 500 samples, the procedure succeeds
(given a non-singular `G`), the output is a 25 × 500 matrix like the target,
its last 3 rows equal the target's raw EOG rows and its first 22 rows are the
corrected EEG values; in particular the two sample counts need not agree. -/
theorem C6_scenario (cal : Matrix (Fin 25) (Fin 1000) ℚ)
    (tgt : Matrix (Fin 25) (Fin 500) ℚ) (h : (Gmat cal).det ≠ 0) :
    ∃ (b : Matrix (Fin 2) (Fin 22) ℚ) (out : Matrix (Fin 25) (Fin 500) ℚ),
      Bmat cal = .ok b ∧ removeEOG cal tgt = .ok out ∧
      (∀ (i : Fin 25) (j : Fin 500), 22 ≤ i.val → out i j = tgt i j) ∧
      ∀ (i : Fin 22) (j : Fin 500), out ⟨i.val, by omega⟩ j = correctEEG tgt b i j := by
  have h2 : det2 (Gmat cal) ≠ 0 := by rwa [det2_eq_det]
  exact ⟨(det2 (Gmat cal))⁻¹ • (adj2 (Gmat cal) * Cmat cal),
    assemble tgt (correctEEG tgt ((det2 (Gmat cal))⁻¹ • (adj2 (Gmat cal) * Cmat cal))),
    linSolve_of_det_ne _ _ h2, removeEOG_eq_ok cal tgt h2,
    fun i j hi => assemble_apply_eog _ _ i j hi,
    fun i j => assemble_apply_eeg _ _ i j⟩

/-- A 1000-sample calibration signal whose first bipolar derivation is
constantly 1 and whose second is 1 on the first sample only, giving the
non-singular cross-product matrix `[[1000, 1], [1, 1]]`. -/
def calW6 : Matrix (Fin 25) (Fin 1000) ℚ :=
  Matrix.of fun i j => if i.val = 22 then 1 else if i.val = 24 ∧ j.val = 0 then 1 else 0

/-- An all-zero 500-sample target signal. -/
def tgtW6 : Matrix (Fin 25) (Fin 500) ℚ := 0

theorem bipEOG_calW6 :
    bipEOG calW6 =
      Matrix.of fun i j => if i.val = 0 then 1 else if j.val = 0 then 1 else 0 := by
  ext i j
  fin_cases i <;>
    simp [bipEOG, bip, eogRows, calW6, Matrix.mul_apply, Fin.sum_univ_three]

theorem Gmat_calW6_00 : Gmat calW6 0 0 = 1000 := by
  rw [Gmat, Matrix.mul_apply]
  simp only [bipEOG_calW6, Matrix.transpose_apply, Matrix.of_apply, Fin.val_zero,
    reduceIte, one_mul, Finset.sum_const, Finset.card_univ, Fintype.card_fin,
    nsmul_eq_mul, mul_one, Nat.cast_ofNat]

theorem Gmat_calW6_01 : Gmat calW6 0 1 = 1 := by
  rw [Gmat, Matrix.mul_apply, Fin.sum_univ_succ]
  simp [bipEOG_calW6, Fin.val_succ]

theorem Gmat_calW6_10 : Gmat calW6 1 0 = 1 := by
  rw [Gmat, Matrix.mul_apply, Fin.sum_univ_succ]
  simp [bipEOG_calW6, Fin.val_succ]

theorem Gmat_calW6_11 : Gmat calW6 1 1 = 1 := by
  rw [Gmat, Matrix.mul_apply, Fin.sum_univ_succ]
  simp [bipEOG_calW6, Fin.val_succ]

theorem det_Gmat_calW6 : (Gmat calW6).det ≠ 0 := by
  rw [Matrix.det_fin_two, Gmat_calW6_00, Gmat_calW6_01, Gmat_calW6_10, Gmat_calW6_11]
  norm_num

theorem C6_scenario_witness :
    (Gmat calW6).det ≠ 0 ∧
      ∃ (b : Matrix (Fin 2) (Fin 22) ℚ) (out : Matrix (Fin 25) (Fin 500) ℚ),
        Bmat calW6 = .ok b ∧ removeEOG calW6 tgtW6 = .ok out ∧
        (∀ (i : Fin 25) (j : Fin 500), 22 ≤ i.val → out i j = tgtW6 i j) ∧
        ∀ (i : Fin 22) (j : Fin 500), out ⟨i.val, by omega⟩ j = correctEEG tgtW6 b i j :=
  ⟨det_Gmat_calW6, C6_scenario calW6 tgtW6 det_Gmat_calW6⟩

/-! Section: The generalized procedure with shape validation

The script in `src` works on fixed, mutually compatible shapes (25 channels,
a 2 × 3 bipolar transform), so the shape validation described for
`removeEOGArtifacts` exists only in the specification; it is modelled here on
untyped list-of-rows matrices. -/

/-- Read a list-of-rows matrix as an `r × c` matrix (absent entries read 0;
after the shape check no entry is absent). -/
def toMat (m : List (List ℚ)) (r c : ℕ) : Matrix (Fin r) (Fin c) ℚ :=
  Matrix.of fun i j => (m.getD i.val []).getD j.val 0

/-- Write a matrix back as a list of rows. -/
def ofMat {r c : ℕ} (a : Matrix (Fin r) (Fin c) ℚ) : List (List ℚ) :=
  (List.finRange r).map fun i => (List.finRange c).map fun j => a i j

/-- Model of `np.linalg.solve` for a `k × k` system of any size: the exact solution
when the coefficient matrix is invertible, the singular-regression error
otherwise. -/
def linSolveN {k m : ℕ} (g : Matrix (Fin k) (Fin k) ℚ)
    (c : Matrix (Fin k) (Fin m) ℚ) :
    Except RegressionError (Matrix (Fin k) (Fin m) ℚ) :=
  if g.det = 0 then .error .singularRegression
  else .ok (g.det⁻¹ • (g.adjugate * c))

/-- Modelled from the spec: the shape compatibility check of
`removeEOGArtifacts`, which is missing from the script in `src`.  Every
signal and the transform must be rectangular (consistent sample alignment
within each input), calibration and target must have equal channel counts,
and the channel count must equal the EEG-channel count plus the transform's
input dimension (its column count equals the raw EOG channel count). -/
def shapeOK (cal tgt bipT : List (List ℚ)) (nEEG : ℕ) : Bool :=
  bipT.all (fun row => row.length = (bipT.headD []).length) &&
  cal.all (fun row => row.length = (cal.headD []).length) &&
  tgt.all (fun row => row.length = (tgt.headD []).length) &&
  (cal.length == tgt.length) &&
  (cal.length == nEEG + (bipT.headD []).length)

/-- Modelled from the spec: `removeEOGArtifacts(calibration, target,
bipolarTransform)` with explicit shape validation, which is missing from the
script in `src` (there the shapes are fixed and compatible).  On compatible
shapes it performs the regression of the script with the given transform and
channel split; on incompatible shapes it fails with `shapeMismatch`. -/
def removeEOGArtifacts (cal tgt bipT : List (List ℚ)) (nEEG : ℕ) :
    Except RegressionError (List (List ℚ)) :=
  if shapeOK cal tgt bipT nEEG then
    let r := (bipT.headD []).length
    let k := bipT.length
    let n₁ := (cal.headD []).length
    let n₂ := (tgt.headD []).length
    let bm := toMat bipT k r
    let calEOG := bm * Matrix.of fun (i : Fin r) (j : Fin n₁) =>
      toMat cal (nEEG + r) n₁ ⟨nEEG + i.val, by omega⟩ j
    let calEEG : Matrix (Fin nEEG) (Fin n₁) ℚ := Matrix.of fun i j =>
      toMat cal (nEEG + r) n₁ ⟨i.val, by omega⟩ j
    let tgtEOG := bm * Matrix.of fun (i : Fin r) (j : Fin n₂) =>
      toMat tgt (nEEG + r) n₂ ⟨nEEG + i.val, by omega⟩ j
    let tgtEEG : Matrix (Fin nEEG) (Fin n₂) ℚ := Matrix.of fun i j =>
      toMat tgt (nEEG + r) n₂ ⟨i.val, by omega⟩ j
    (linSolveN (calEOG * calEOGᵀ) (calEOG * calEEGᵀ)).map fun b =>
      ofMat (Matrix.of fun (i : Fin (nEEG + r)) (j : Fin n₂) =>
        if h : i.val < nEEG then ((tgtEEGᵀ - tgtEOGᵀ * b)ᵀ) ⟨i.val, h⟩ j
        else toMat tgt (nEEG + r) n₂ i j)
  else .error .shapeMismatch

theorem linSolveN_map_ne {k m : ℕ} (g : Matrix (Fin k) (Fin k) ℚ)
    (c : Matrix (Fin k) (Fin m) ℚ) (f : Matrix (Fin k) (Fin m) ℚ → List (List ℚ)) :
    (linSolveN g c).map f ≠ Except.error RegressionError.shapeMismatch := by
  rw [linSolveN]
  by_cases hd : g.det = 0 <;> simp [hd, Except.map]

/-- Claim C5: The generalized procedure fails with the shape-mismatch error
exactly when the channel counts, the bipolar transform's dimensions, or the
sample alignment of the inputs are incompatible; on compatible shapes it
never reports a shape mismatch. -/
theorem C5_shape_mismatch_iff (cal tgt bipT : List (List ℚ)) (nEEG : ℕ) :
    removeEOGArtifacts cal tgt bipT nEEG = .error .shapeMismatch ↔
      ¬ shapeOK cal tgt bipT nEEG = true := by
  unfold removeEOGArtifacts
  by_cases h : shapeOK cal tgt bipT nEEG = true
  · simp only [h, if_true, not_true, iff_false]
    exact linSolveN_map_ne _ _ _
  · simp [h]
